import Mathlib

/-! Verification development for the MoneyCast budget forecaster
(src/moneycast.py).  The file shallowly embeds the program: the calendar
arithmetic helpers (`add_weeks`, `add_months`), the `BudgetItem` model and
its constructor, the JSON record decoder, and the two-phase `forecast`
engine (overdue-date normalization followed by the day-by-day walk).
Calendar dates are modelled as proleptic-Gregorian year/month/day triples
(the semantics of Python's `datetime.date`, whose ordering, ordinal count
and `isoweekday` the lemmas below reproduce; the implementation-specific
year range 1..9999 of the concrete library is idealized to all integers).
Python's floor division and modulus by the positive constants used here
(4, 100, 400, 12, 7) coincide with Euclidean `Int.ediv` / `Int.emod`,
which is what the definitions use. -/

namespace MoneyCast

/-- Recurrence frequencies, mirroring `CycleEnum` in the source. -/
inductive CycleEnum
  | DAILY | WEEKLY | BIWEEKLY | MONTHLY | BIMONTHLY | QUARTERLY | YEARLY
deriving DecidableEq, Repr

/-- Due-date discriminator, mirroring `DueDateType` in the source. -/
inductive DueDateType
  | WeekDay | DateNumber | Date | Daily
deriving DecidableEq, Repr

/-- Days of the week; `iso` gives the value used by the source's
`DayOfWeek` enum (Monday=1 .. Sunday=7, matching `date.isoweekday()`). -/
inductive DayOfWeek
  | Monday | Tuesday | Wednesday | Thursday | Friday | Saturday | Sunday
deriving DecidableEq, Repr

/-- The ISO weekday number of each `DayOfWeek` value. -/
def DayOfWeek.iso : DayOfWeek → Nat
  | .Monday => 1 | .Tuesday => 2 | .Wednesday => 3 | .Thursday => 4
  | .Friday => 5 | .Saturday => 6 | .Sunday => 7

/-- A calendar date: the `datetime.date` triple. -/
structure Date where
  year : Int
  month : Nat
  day : Nat
deriving DecidableEq, Repr

/-- Python `calendar.isleap`. -/
def isLeap (y : Int) : Bool :=
  y % 4 == 0 && (y % 100 != 0 || y % 400 == 0)

/-- Python `calendar.monthrange(y, m)[1]`: the number of days of month `m`
of year `y` (months are 1..12; the catch-all is junk, never reached from
valid dates). -/
def daysInMonth (y : Int) (m : Nat) : Nat :=
  match m with
  | 1 => 31
  | 2 => if isLeap y then 29 else 28
  | 3 => 31 | 4 => 30 | 5 => 31 | 6 => 30 | 7 => 31 | 8 => 31
  | 9 => 30 | 10 => 31 | 11 => 30 | 12 => 31
  | _ => 0

/-- Days of a non-leap year strictly before month `m`. -/
def baseDaysBeforeMonth : Nat → Nat
  | 1 => 0 | 2 => 31 | 3 => 59 | 4 => 90 | 5 => 120 | 6 => 151 | 7 => 181
  | 8 => 212 | 9 => 243 | 10 => 273 | 11 => 304 | 12 => 334
  | _ => 0

/-- Days of year `y` strictly before month `m`. -/
def daysBeforeMonth (y : Int) (m : Nat) : Nat :=
  baseDaysBeforeMonth m + (if 2 < m ∧ isLeap y = true then 1 else 0)

/-- Number of leap years in 1..y (proleptic Gregorian). -/
def leapsBefore (y : Int) : Int :=
  y / 4 - y / 100 + y / 400

/-- Ordinal of the last day of year `y` (so `date(1,1,1).toOrdinal = 1`,
as in Python's `date.toordinal`). -/
def yearOrd (y : Int) : Int := 365 * y + leapsBefore y

/-- Python `date.toordinal()`: day count with 0001-01-01 as day 1. -/
def Date.toOrdinal (d : Date) : Int :=
  yearOrd (d.year - 1) + (daysBeforeMonth d.year d.month : Int) + (d.day : Int)

/-- The dates `datetime.date` can actually hold: month in 1..12 and day in
1..(length of that month). -/
def Date.Valid (d : Date) : Prop :=
  1 ≤ d.month ∧ d.month ≤ 12 ∧ 1 ≤ d.day ∧ d.day ≤ daysInMonth d.year d.month

instance decDateValid (d : Date) : Decidable d.Valid := by
  unfold Date.Valid; exact inferInstance

/-- Python date comparison (`date.__lt__`): lexicographic on (y, m, d). -/
def Date.lt (a b : Date) : Prop :=
  a.year < b.year ∨
    (a.year = b.year ∧ (a.month < b.month ∨ (a.month = b.month ∧ a.day < b.day)))

instance decDateLt (a b : Date) : Decidable (Date.lt a b) := by
  unfold Date.lt; exact inferInstance

/-- Python `date.isoweekday()` (`toordinal() % 7 or 7`). -/
def Date.isoweekday (d : Date) : Nat :=
  let r := (d.toOrdinal % 7).toNat
  if r = 0 then 7 else r

/-- The day after `d` (successor semantics of `d + timedelta(days=1)`). -/
def Date.nextDay (d : Date) : Date :=
  if d.day < daysInMonth d.year d.month then ⟨d.year, d.month, d.day + 1⟩
  else if d.month < 12 then ⟨d.year, d.month + 1, 1⟩
  else ⟨d.year + 1, 1, 1⟩

/-- The day before `d` (`d - timedelta(days=1)`). -/
def Date.prevDay (d : Date) : Date :=
  if 1 < d.day then ⟨d.year, d.month, d.day - 1⟩
  else if 1 < d.month then ⟨d.year, d.month - 1, daysInMonth d.year (d.month - 1)⟩
  else ⟨d.year - 1, 12, 31⟩

/-- `add_months` from the source (lines 53-58): advance the month by
`months`, wrapping the year with Python floor division / modulus by 12,
and clamp the day to the length of the resulting month. -/
def add_months (sourcedate : Date) (months : Int) : Date :=
  let month := (sourcedate.month : Int) - 1 + months
  let year := sourcedate.year + month / 12
  let month2 := (month % 12).toNat + 1
  let day := min sourcedate.day (daysInMonth year month2)
  ⟨year, month2, day⟩

/-! Calendar lemmas: the ordinal count is a strictly monotone image of the
lexicographic date order on valid dates, day-successor shifts it by one,
and `add_months` by a positive count strictly advances a date. -/

/-- 1 when `y` is a leap year, else 0. -/
def leapBit (y : Int) : Int := if isLeap y = true then 1 else 0

theorem leapBit_nonneg (y : Int) : 0 ≤ leapBit y := by
  unfold leapBit; split <;> omega

theorem leapBit_le_one (y : Int) : leapBit y ≤ 1 := by
  unfold leapBit; split <;> omega

theorem isLeap_iff (y : Int) :
    isLeap y = true ↔ (y % 4 = 0 ∧ (y % 100 ≠ 0 ∨ y % 400 = 0)) := by
  simp [isLeap]

theorem leapsBefore_succ (y : Int) :
    leapsBefore y = leapsBefore (y - 1) + leapBit y := by
  unfold leapsBefore leapBit
  by_cases h : isLeap y = true
  · rw [if_pos h]
    rw [isLeap_iff] at h
    omega
  · rw [if_neg h]
    rw [isLeap_iff] at h
    push_neg at h
    omega

theorem yearOrd_succ (y : Int) :
    yearOrd y = yearOrd (y - 1) + 365 + leapBit y := by
  unfold yearOrd
  rw [leapsBefore_succ y]
  ring


theorem yearOrd_lt_mono {a b : Int} (h : a < b) : yearOrd a + 365 ≤ yearOrd b := by
  have base : yearOrd a + 365 ≤ yearOrd (a + 1) := by
    have hb1 := leapBit_nonneg (a + 1)
    have hb2 := yearOrd_succ (a + 1)
    have e : a + 1 - 1 = a := by ring
    rw [e] at hb2
    omega
  have step : ∀ n : Int, a + 1 ≤ n → yearOrd a + 365 ≤ yearOrd n →
      yearOrd a + 365 ≤ yearOrd (n + 1) := by
    intro n hn ih
    have hb1 := leapBit_nonneg (n + 1)
    have hb2 := yearOrd_succ (n + 1)
    have e : n + 1 - 1 = n := by ring
    rw [e] at hb2
    omega
  exact @Int.le_induction (fun n => yearOrd a + 365 ≤ yearOrd n) (a + 1)
    base step b (by omega)

theorem yearOrd_mono {a b : Int} (h : a ≤ b) : yearOrd a ≤ yearOrd b := by
  rcases eq_or_lt_of_le h with rfl | hlt
  · exact le_refl _
  · have := yearOrd_lt_mono hlt
    omega

theorem dayOfYear_bounds {d : Date} (h : d.Valid) :
    1 ≤ (daysBeforeMonth d.year d.month : Int) + (d.day : Int) ∧
      (daysBeforeMonth d.year d.month : Int) + (d.day : Int) ≤ 365 + leapBit d.year := by
  obtain ⟨y, m, dd⟩ := d
  have h1 : 1 ≤ m := h.1
  have h2 : m ≤ 12 := h.2.1
  have h3 : 1 ≤ dd := h.2.2.1
  have h4 : dd ≤ daysInMonth y m := h.2.2.2
  simp only []
  cases hl : isLeap y <;> interval_cases m <;>
    simp [daysInMonth, daysBeforeMonth, baseDaysBeforeMonth, leapBit, hl] at h4 ⊢ <;>
    omega

theorem daysBeforeMonth_step (y : Int) {m : Nat} (h1 : 1 ≤ m) (h2 : m ≤ 11) :
    daysBeforeMonth y (m + 1) = daysBeforeMonth y m + daysInMonth y m := by
  cases hl : isLeap y <;> interval_cases m <;>
    simp [daysInMonth, daysBeforeMonth, baseDaysBeforeMonth, hl]

theorem daysInMonth_bounds (y : Int) {m : Nat} (h1 : 1 ≤ m) (h2 : m ≤ 12) :
    28 ≤ daysInMonth y m ∧ daysInMonth y m ≤ 31 := by
  cases hl : isLeap y <;> interval_cases m <;> simp [daysInMonth, hl]

theorem daysBeforeMonth_mono (y : Int) {ma mb : Nat} (h1 : 1 ≤ ma) (h2 : ma < mb)
    (h3 : mb ≤ 12) :
    daysBeforeMonth y ma + daysInMonth y ma ≤ daysBeforeMonth y mb := by
  have h4 : ma ≤ 11 := by omega
  cases hl : isLeap y <;> interval_cases ma <;> interval_cases mb <;>
    simp [daysInMonth, daysBeforeMonth, baseDaysBeforeMonth, hl]

theorem daysBeforeMonth_ge_base (y : Int) (m : Nat) :
    baseDaysBeforeMonth m ≤ daysBeforeMonth y m := by
  unfold daysBeforeMonth; split <;> omega

theorem daysBeforeMonth_le_base (y : Int) (m : Nat) :
    daysBeforeMonth y m ≤ baseDaysBeforeMonth m + 1 := by
  unfold daysBeforeMonth; split <;> omega

theorem toOrdinal_lt_of_lt {a b : Date} (ha : a.Valid) (hb : b.Valid)
    (h : Date.lt a b) : a.toOrdinal < b.toOrdinal := by
  have hA := (dayOfYear_bounds ha).2
  have hB := (dayOfYear_bounds hb).1
  unfold Date.lt at h
  unfold Date.toOrdinal
  rcases h with hy | ⟨hy, hm | ⟨hm, hd⟩⟩
  · have hys := yearOrd_succ a.year
    have hyo : yearOrd a.year ≤ yearOrd (b.year - 1) := yearOrd_mono (by omega)
    omega
  · have hmono := @daysBeforeMonth_mono b.year a.month b.month ha.1 hm hb.2.1
    have ha4 : a.day ≤ daysInMonth a.year a.month := ha.2.2.2
    have hb3 : 1 ≤ b.day := hb.2.2.1
    rw [hy] at ha4 ⊢
    omega
  · rw [hy, hm]
    omega

theorem Date.lt_trichot (a b : Date) : Date.lt a b ∨ a = b ∨ Date.lt b a := by
  obtain ⟨ya, ma, da⟩ := a
  obtain ⟨yb, mb, db⟩ := b
  simp only [Date.lt, Date.mk.injEq]
  omega

theorem Date.lt_iff_toOrdinal {a b : Date} (ha : a.Valid) (hb : b.Valid) :
    Date.lt a b ↔ a.toOrdinal < b.toOrdinal := by
  constructor
  · exact toOrdinal_lt_of_lt ha hb
  · intro h
    rcases Date.lt_trichot a b with hlt | rfl | hgt
    · exact hlt
    · omega
    · have := toOrdinal_lt_of_lt hb ha hgt
      omega

theorem nextDay_valid {d : Date} (h : d.Valid) : d.nextDay.Valid := by
  obtain ⟨y, m, dd⟩ := d
  have h1 : 1 ≤ m := h.1
  have h2 : m ≤ 12 := h.2.1
  have h3 : 1 ≤ dd := h.2.2.1
  have h4 : dd ≤ daysInMonth y m := h.2.2.2
  unfold Date.nextDay
  simp only []
  split
  · next hlt =>
    simp only [Date.Valid]
    refine ⟨by omega, by omega, by omega, by omega⟩
  · next hge =>
    split
    · next hm =>
      have hb := (@daysInMonth_bounds y (m + 1) (by omega) (by omega)).1
      simp only [Date.Valid]
      refine ⟨by omega, by omega, by omega, by omega⟩
    · next hm =>
      simp only [Date.Valid]
      refine ⟨by omega, by omega, by omega, ?_⟩
      simp [daysInMonth]

theorem toOrdinal_nextDay {d : Date} (h : d.Valid) :
    d.nextDay.toOrdinal = d.toOrdinal + 1 := by
  obtain ⟨y, m, dd⟩ := d
  have h1 : 1 ≤ m := h.1
  have h2 : m ≤ 12 := h.2.1
  have h3 : 1 ≤ dd := h.2.2.1
  have h4 : dd ≤ daysInMonth y m := h.2.2.2
  unfold Date.nextDay
  simp only []
  split
  · simp only [Date.toOrdinal]
    omega
  · next hge =>
    split
    · next hm =>
      have hstep := daysBeforeMonth_step y h1 (by omega)
      simp only [Date.toOrdinal]
      omega
    · next hm =>
      have hm12 : m = 12 := by omega
      subst hm12
      have hdim : daysInMonth y 12 = 31 := rfl
      have hdd : dd = 31 := by omega
      subst hdd
      simp only [Date.toOrdinal]
      have hys := yearOrd_succ y
      have e0 : y + 1 - 1 = y := by ring
      rw [e0]
      have e1 : daysBeforeMonth (y + 1) 1 = 0 := by
        simp [daysBeforeMonth, baseDaysBeforeMonth]
      have e2 : (daysBeforeMonth y 12 : Int) = 334 + leapBit y := by
        unfold daysBeforeMonth leapBit
        have hb : baseDaysBeforeMonth 12 = 334 := rfl
        rw [hb]
        by_cases hl : isLeap y = true
        · rw [if_pos (⟨by omega, hl⟩ : 2 < 12 ∧ isLeap y = true), if_pos hl]
          omega
        · rw [if_neg (fun hc => hl hc.2), if_neg hl]
          omega
      rw [e1]
      omega

theorem prevDay_valid {d : Date} (h : d.Valid) : d.prevDay.Valid := by
  obtain ⟨y, m, dd⟩ := d
  have h1 : 1 ≤ m := h.1
  have h2 : m ≤ 12 := h.2.1
  have h3 : 1 ≤ dd := h.2.2.1
  have h4 : dd ≤ daysInMonth y m := h.2.2.2
  unfold Date.prevDay
  simp only []
  split
  · simp only [Date.Valid]
    refine ⟨by omega, by omega, by omega, by omega⟩
  · split
    · next hm =>
      have hb := (@daysInMonth_bounds y (m - 1) (by omega) (by omega)).1
      simp only [Date.Valid]
      refine ⟨by omega, by omega, by omega, by omega⟩
    · next hm =>
      simp only [Date.Valid]
      refine ⟨by omega, by omega, by omega, ?_⟩
      simp [daysInMonth]

theorem toOrdinal_prevDay {d : Date} (h : d.Valid) :
    d.prevDay.toOrdinal = d.toOrdinal - 1 := by
  obtain ⟨y, m, dd⟩ := d
  have h1 : 1 ≤ m := h.1
  have h2 : m ≤ 12 := h.2.1
  have h3 : 1 ≤ dd := h.2.2.1
  have h4 : dd ≤ daysInMonth y m := h.2.2.2
  unfold Date.prevDay
  simp only []
  split
  · simp only [Date.toOrdinal]
    omega
  · next hdd =>
    split
    · next hm =>
      have hstep := @daysBeforeMonth_step y (m - 1) (by omega) (by omega)
      have e : m - 1 + 1 = m := by omega
      rw [e] at hstep
      simp only [Date.toOrdinal]
      omega
    · next hm =>
      have hm1 : m = 1 := by omega
      have hdd1 : dd = 1 := by omega
      subst hm1; subst hdd1
      simp only [Date.toOrdinal]
      have hys := yearOrd_succ (y - 1)
      have e1 : daysBeforeMonth y 1 = 0 := by
        simp [daysBeforeMonth, baseDaysBeforeMonth]
      have e2 : (daysBeforeMonth (y - 1) 12 : Int) = 334 + leapBit (y - 1) := by
        unfold daysBeforeMonth leapBit
        have hb : baseDaysBeforeMonth 12 = 334 := rfl
        rw [hb]
        by_cases hl : isLeap (y - 1) = true
        · rw [if_pos (⟨by omega, hl⟩ : 2 < 12 ∧ isLeap (y - 1) = true), if_pos hl]
          omega
        · rw [if_neg (fun hc => hl hc.2), if_neg hl]
          omega
      rw [e1]
      omega

theorem add_months_valid {d : Date} (h : d.Valid) (n : Int) :
    (add_months d n).Valid := by
  obtain ⟨y, m, dd⟩ := d
  have h1 : 1 ≤ m := h.1
  have h2 : m ≤ 12 := h.2.1
  have h3 : 1 ≤ dd := h.2.2.1
  simp only [add_months, Date.Valid]
  have hb := (@daysInMonth_bounds (y + ((m : Int) - 1 + n) / 12)
    ((((m : Int) - 1 + n) % 12).toNat + 1) (by omega) (by omega)).1
  refine ⟨by omega, by omega, by omega, by omega⟩

theorem add_months_monthEq (d : Date) (n : Int) :
    (add_months d n).year * 12 + ((add_months d n).month : Int)
      = d.year * 12 + (d.month : Int) + n := by
  obtain ⟨y, m, dd⟩ := d
  simp only [add_months]
  omega

theorem add_months_dayEq (d : Date) (n : Int) :
    (add_months d n).day
      = min d.day (daysInMonth (add_months d n).year (add_months d n).month) := by
  obtain ⟨y, m, dd⟩ := d
  simp only [add_months]

theorem lt_add_months {d : Date} (h : d.Valid) {n : Int} (hn : 1 ≤ n) :
    Date.lt d (add_months d n) := by
  obtain ⟨y, m, dd⟩ := d
  have h1 : 1 ≤ m := h.1
  have h2 : m ≤ 12 := h.2.1
  simp only [add_months, Date.lt]
  omega

theorem toOrdinal_lt_add_months {d : Date} (h : d.Valid) {n : Int} (hn : 1 ≤ n) :
    d.toOrdinal < (add_months d n).toOrdinal :=
  toOrdinal_lt_of_lt h (add_months_valid h n) (lt_add_months h hn)

theorem add_months_twelve_eq {d : Date} (h : d.Valid) :
    add_months d 12
      = ⟨d.year + 1, d.month, min d.day (daysInMonth (d.year + 1) d.month)⟩ := by
  obtain ⟨y, m, dd⟩ := d
  have h1 : 1 ≤ m := h.1
  have h2 : m ≤ 12 := h.2.1
  simp only [add_months, Date.mk.injEq]
  have e1 : y + ((m : Int) - 1 + 12) / 12 = y + 1 := by omega
  have e2 : (((m : Int) - 1 + 12) % 12).toNat + 1 = m := by omega
  rw [e1, e2]
  exact ⟨rfl, rfl, rfl⟩

theorem toOrdinal_add_months_twelve {d : Date} (h : d.Valid) :
    d.toOrdinal + 300 ≤ (add_months d 12).toOrdinal := by
  rw [add_months_twelve_eq h]
  have h1 : 1 ≤ d.month := h.1
  have h2 : d.month ≤ 12 := h.2.1
  have h3 : 1 ≤ d.day := h.2.2.1
  have h4 : d.day ≤ daysInMonth d.year d.month := h.2.2.2
  unfold Date.toOrdinal
  simp only []
  have e0 : d.year + 1 - 1 = d.year := by ring
  rw [e0]
  have hys := yearOrd_succ d.year
  have hb0 := leapBit_nonneg d.year
  have hd1 := daysBeforeMonth_ge_base (d.year + 1) d.month
  have hd2 := daysBeforeMonth_le_base d.year d.month
  have hb1 := (daysInMonth_bounds (d.year + 1) h1 h2).1
  have hb2 := (daysInMonth_bounds d.year h1 h2).2
  omega

/-! Valid dates.  Python's `date` constructor validates its arguments, so
every date value flowing through the program satisfies `Date.Valid`; the
engine is therefore modelled over the subtype of valid dates. -/

/-- A date that `datetime.date` can represent (validity carried along). -/
abbrev ValidDate := {d : Date // d.Valid}

/-- Python date ordering on valid dates. -/
def ValidDate.lt (a b : ValidDate) : Prop := Date.lt a.val b.val

instance decValidDateLt (a b : ValidDate) : Decidable (ValidDate.lt a b) := by
  unfold ValidDate.lt; exact inferInstance

/-- The ordinal of a valid date. -/
def ValidDate.toOrdinal (d : ValidDate) : Int := d.val.toOrdinal

/-- Successor day on valid dates. -/
def ValidDate.nextDay (d : ValidDate) : ValidDate :=
  ⟨d.val.nextDay, nextDay_valid d.property⟩

/-- `d + timedelta(days=n)` for `n ≥ 0`, as iterated day successor. -/
def ValidDate.addDays (d : ValidDate) : Nat → ValidDate
  | 0 => d
  | n + 1 => ValidDate.nextDay (ValidDate.addDays d n)

/-- Predecessor day on valid dates. -/
def ValidDate.prevDay (d : ValidDate) : ValidDate :=
  ⟨d.val.prevDay, prevDay_valid d.property⟩

/-- `d - timedelta(days=n)` for `n ≥ 0`. -/
def ValidDate.subDays (d : ValidDate) : Nat → ValidDate
  | 0 => d
  | n + 1 => ValidDate.prevDay (ValidDate.subDays d n)

/-- `add_weeks` from the source (lines 48-50): `d + timedelta(days=7*w)`. -/
def ValidDate.addWeeks (d : ValidDate) (weeks : Nat) : ValidDate :=
  ValidDate.addDays d (7 * weeks)

/-- `add_months` lifted to valid dates (its result is always valid). -/
def ValidDate.addMonths (d : ValidDate) (n : Int) : ValidDate :=
  ⟨add_months d.val n, add_months_valid d.property n⟩

theorem ValidDate.toOrdinal_addDays (d : ValidDate) (n : Nat) :
    ValidDate.toOrdinal (ValidDate.addDays d n) = ValidDate.toOrdinal d + n := by
  induction n with
  | zero => simp [ValidDate.addDays]
  | succ k ih =>
    have hstep := toOrdinal_nextDay (ValidDate.addDays d k).property
    simp only [ValidDate.addDays, ValidDate.nextDay, ValidDate.toOrdinal] at *
    omega

theorem ValidDate.toOrdinal_subDays (d : ValidDate) (n : Nat) :
    ValidDate.toOrdinal (ValidDate.subDays d n) = ValidDate.toOrdinal d - n := by
  induction n with
  | zero => simp [ValidDate.subDays]
  | succ k ih =>
    have hstep := toOrdinal_prevDay (ValidDate.subDays d k).property
    simp only [ValidDate.subDays, ValidDate.prevDay, ValidDate.toOrdinal] at *
    omega

theorem ValidDate.lt_iff (a b : ValidDate) :
    ValidDate.lt a b ↔ ValidDate.toOrdinal a < ValidDate.toOrdinal b :=
  Date.lt_iff_toOrdinal a.property b.property

theorem ValidDate.eq_iff_toOrdinal (a b : ValidDate) :
    a = b ↔ ValidDate.toOrdinal a = ValidDate.toOrdinal b := by
  constructor
  · intro h; rw [h]
  · intro h
    rcases Date.lt_trichot a.val b.val with hlt | heq | hgt
    · have := toOrdinal_lt_of_lt a.property b.property hlt
      exact absurd this (by unfold ValidDate.toOrdinal at h; omega)
    · exact Subtype.ext heq
    · have := toOrdinal_lt_of_lt b.property a.property hgt
      exact absurd this (by unfold ValidDate.toOrdinal at h; omega)

theorem ValidDate.toOrdinal_addWeeks_two (d : ValidDate) :
    ValidDate.toOrdinal (ValidDate.addWeeks d 2) = ValidDate.toOrdinal d + 14 := by
  have := ValidDate.toOrdinal_addDays d 14
  simpa [ValidDate.addWeeks] using this

theorem ValidDate.toOrdinal_lt_addMonths (d : ValidDate) {n : Int} (hn : 1 ≤ n) :
    ValidDate.toOrdinal d < ValidDate.toOrdinal (ValidDate.addMonths d n) :=
  toOrdinal_lt_add_months d.property hn

theorem ValidDate.toOrdinal_addMonths_twelve (d : ValidDate) :
    ValidDate.toOrdinal d + 300 ≤ ValidDate.toOrdinal (ValidDate.addMonths d 12) :=
  toOrdinal_add_months_twelve d.property

/-! The budget item model. -/

/-- A stored due-date payload (`self.due_date` in the source): an `int`, a
`DayOfWeek` member, or a `datetime.date`.  (`None`, and the attribute being
left unset for unsupported payload types, are both modelled by `none` in
`BudgetItem.due_date`; the engine never distinguishes the two.) -/
inductive DueDateVal
  | int (n : Int)
  | weekday (w : DayOfWeek)
  | date (d : ValidDate)
deriving DecidableEq

/-- A budget item (`BudgetItem` in the source).  `due_date_type = none`
models the constructor leaving `self.due_date_type = None` when the
supplied payload has an unsupported type.  Amounts are modelled as exact
rationals. -/
structure BudgetItem where
  name : String
  amount : Rat
  cycle : CycleEnum
  due_date_type : Option DueDateType
  due_date : Option DueDateVal
deriving DecidableEq

/-- The possible `due_date` arguments of `BudgetItem.__init__`: an `int`, a
`DayOfWeek`, a `date`, `None` (the default), or a value of any other,
unsupported type (carrying a description string). -/
inductive DueDateInput
  | int (n : Int)
  | weekday (w : DayOfWeek)
  | date (d : ValidDate)
  | noDate
  | unsupported (descr : String)
deriving DecidableEq

/-- `BudgetItem.__init__` (source lines 62-80): the runtime type of
`due_date` selects the due-date kind; any other type leaves
`due_date_type` as `None` and never assigns `self.due_date` (and raises
no error). -/
def BudgetItem.make (name : String) (amount : Rat) (cycle : CycleEnum)
    (due_date : DueDateInput) : BudgetItem :=
  match due_date with
  | DueDateInput.int n =>
      ⟨name, amount, cycle, some DueDateType.DateNumber, some (DueDateVal.int n)⟩
  | DueDateInput.weekday w =>
      ⟨name, amount, cycle, some DueDateType.WeekDay, some (DueDateVal.weekday w)⟩
  | DueDateInput.date d =>
      ⟨name, amount, cycle, some DueDateType.Date, some (DueDateVal.date d)⟩
  | DueDateInput.noDate =>
      ⟨name, amount, cycle, some DueDateType.Daily, none⟩
  | DueDateInput.unsupported _ =>
      ⟨name, amount, cycle, none, none⟩

/-- An item whose payload is a date whenever its kind is `Date`.  Every
constructor-produced item satisfies this; in Python a violating item would
make Phase 1 compare a non-date with a date and crash, so the `forecast`
theorems assume it. -/
def BudgetItem.dateWF (it : BudgetItem) : Bool :=
  match it.due_date_type, it.due_date with
  | some DueDateType.Date, some (DueDateVal.date _) => true
  | some DueDateType.Date, _ => false
  | _, _ => true

/-! The forecast engine (source lines 183-245).  The plotting code at the
end of the Python function (lines 247-269) is the presentation adapter and
is outside the engine model. -/

/-- The four cycles that advance a Date-kind due date. -/
def advCycles : List CycleEnum :=
  [CycleEnum.BIWEEKLY, CycleEnum.BIMONTHLY, CycleEnum.QUARTERLY, CycleEnum.YEARLY]

/-- One advancing `while` loop of Phase 1 (BIWEEKLY arm, lines 200-202). -/
def advBiweekly (ws : ValidDate) (d : ValidDate) : ValidDate :=
  if h : ValidDate.lt d ws then advBiweekly ws (ValidDate.addWeeks d 2) else d
termination_by (ValidDate.toOrdinal ws - ValidDate.toOrdinal d).toNat
decreasing_by
  have h1 := (ValidDate.lt_iff d ws).mp h
  have h2 := ValidDate.toOrdinal_addWeeks_two d
  omega

/-- One advancing `while` loop of Phase 1 (BIMONTHLY arm, lines 203-205). -/
def advBimonthly (ws : ValidDate) (d : ValidDate) : ValidDate :=
  if h : ValidDate.lt d ws then advBimonthly ws (ValidDate.addMonths d 2) else d
termination_by (ValidDate.toOrdinal ws - ValidDate.toOrdinal d).toNat
decreasing_by
  have h1 := (ValidDate.lt_iff d ws).mp h
  have h2 := @ValidDate.toOrdinal_lt_addMonths d 2 (by omega)
  omega

/-- One advancing `while` loop of Phase 1 (QUARTERLY arm, lines 206-208). -/
def advQuarterly (ws : ValidDate) (d : ValidDate) : ValidDate :=
  if h : ValidDate.lt d ws then advQuarterly ws (ValidDate.addMonths d 3) else d
termination_by (ValidDate.toOrdinal ws - ValidDate.toOrdinal d).toNat
decreasing_by
  have h1 := (ValidDate.lt_iff d ws).mp h
  have h2 := @ValidDate.toOrdinal_lt_addMonths d 3 (by omega)
  omega

/-- One advancing `while` loop of Phase 1 (YEARLY arm, lines 209-211). -/
def advYearly (ws : ValidDate) (d : ValidDate) : ValidDate :=
  if h : ValidDate.lt d ws then advYearly ws (ValidDate.addMonths d 12) else d
termination_by (ValidDate.toOrdinal ws - ValidDate.toOrdinal d).toNat
decreasing_by
  have h1 := (ValidDate.lt_iff d ws).mp h
  have h2 := @ValidDate.toOrdinal_lt_addMonths d 12 (by omega)
  omega

/-- Phase 1 for one item (source lines 193-211): a Date-kind item whose due
date precedes the window start `ws` is advanced by its cycle's step until
on or after `ws`; the DAILY/WEEKLY/MONTHLY arms are commented out in the
source, so those cycles fall through unchanged. -/
def normalizeItem (ws : ValidDate) (it : BudgetItem) : BudgetItem :=
  match it.due_date_type, it.due_date with
  | some DueDateType.Date, some (DueDateVal.date d) =>
    if ValidDate.lt d ws then
      match it.cycle with
      | CycleEnum.BIWEEKLY =>
          { it with due_date := some (DueDateVal.date (advBiweekly ws d)) }
      | CycleEnum.BIMONTHLY =>
          { it with due_date := some (DueDateVal.date (advBimonthly ws d)) }
      | CycleEnum.QUARTERLY =>
          { it with due_date := some (DueDateVal.date (advQuarterly ws d)) }
      | CycleEnum.YEARLY =>
          { it with due_date := some (DueDateVal.date (advYearly ws d)) }
      | _ => it
    else it
  | _, _ => it

/-- The per-day transaction record: a Python `dict` keyed by item name, in
insertion order, updating in place on key collision. -/
abbrev TransMap := List (String × Rat)

/-- `trans[name] = amount`: dict insertion/update semantics. -/
def transInsert (tr : TransMap) (k : String) (v : Rat) : TransMap :=
  match tr with
  | [] => [(k, v)]
  | (k1, v1) :: rest =>
      if k1 = k then (k, v) :: rest else (k1, v1) :: transInsert rest k v

/-- `trans.get(name)`: lookup by key. -/
def transGet (tr : TransMap) (k : String) : Option Rat :=
  match tr with
  | [] => none
  | (k1, v1) :: rest => if k1 = k then some v1 else transGet rest k

/-- Whether item `it` fires on day `t` (the match tests of source lines
216-228): WeekDay compares the stored weekday with `DayOfWeek(t.isoweekday())`,
DateNumber compares the stored int with `t.day`, Daily always fires, Date
compares the stored date with `t`.  Comparisons between values of
different runtime types are `False` in Python, hence the catch-alls. -/
def itemMatches (t : ValidDate) (it : BudgetItem) : Bool :=
  match it.due_date_type with
  | some DueDateType.WeekDay =>
      match it.due_date with
      | some (DueDateVal.weekday w) => decide (w.iso = t.val.isoweekday)
      | _ => false
  | some DueDateType.DateNumber =>
      match it.due_date with
      | some (DueDateVal.int n) => decide (n = (t.val.day : Int))
      | _ => false
  | some DueDateType.Daily => true
  | some DueDateType.Date =>
      match it.due_date with
      | some (DueDateVal.date d) => decide (d = t)
      | _ => false
  | none => false

/-- The post-fire advancement of a Date-kind item (source lines 235-242):
only the four advancing cycles reschedule; `d` is the item's current due
date. -/
def advanceDate (it : BudgetItem) (d : ValidDate) : BudgetItem :=
  match it.cycle with
  | CycleEnum.BIWEEKLY =>
      { it with due_date := some (DueDateVal.date (ValidDate.addWeeks d 2)) }
  | CycleEnum.BIMONTHLY =>
      { it with due_date := some (DueDateVal.date (ValidDate.addMonths d 2)) }
  | CycleEnum.QUARTERLY =>
      { it with due_date := some (DueDateVal.date (ValidDate.addMonths d 3)) }
  | CycleEnum.YEARLY =>
      { it with due_date := some (DueDateVal.date (ValidDate.addMonths d 12)) }
  | _ => it

/-- Processing of one item on day `t` (the body of the inner loop, source
lines 215-242): on a match the amount is added to the running balance and
recorded in the day's transaction map; a matching Date-kind item is then
advanced per its cycle. -/
def processItem (t : ValidDate) (balance : Rat) (tr : TransMap)
    (it : BudgetItem) : Rat × TransMap × BudgetItem :=
  match it.due_date_type with
  | some DueDateType.WeekDay =>
      match it.due_date with
      | some (DueDateVal.weekday w) =>
          if w.iso = t.val.isoweekday then
            (balance + it.amount, transInsert tr it.name it.amount, it)
          else (balance, tr, it)
      | _ => (balance, tr, it)
  | some DueDateType.DateNumber =>
      match it.due_date with
      | some (DueDateVal.int n) =>
          if n = (t.val.day : Int) then
            (balance + it.amount, transInsert tr it.name it.amount, it)
          else (balance, tr, it)
      | _ => (balance, tr, it)
  | some DueDateType.Daily =>
      (balance + it.amount, transInsert tr it.name it.amount, it)
  | some DueDateType.Date =>
      match it.due_date with
      | some (DueDateVal.date d) =>
          if d = t then
            (balance + it.amount, transInsert tr it.name it.amount, advanceDate it d)
          else (balance, tr, it)
      | _ => (balance, tr, it)
  | none => (balance, tr, it)

/-- The item-state update of `processItem` (the in-place mutation of
`item.due_date`); it depends on neither the balance nor the map. -/
def itemStep (t : ValidDate) (it : BudgetItem) : BudgetItem :=
  match it.due_date_type, it.due_date with
  | some DueDateType.Date, some (DueDateVal.date d) =>
      if d = t then advanceDate it d else it
  | _, _ => it

/-- The inner loop over the item list for day `t`, threading balance and
transaction map and collecting the updated items. -/
def processDayAux (t : ValidDate) (balance : Rat) (tr : TransMap) :
    List BudgetItem → Rat × TransMap × List BudgetItem
  | [] => (balance, tr, [])
  | it :: rest =>
    let r1 := processItem t balance tr it
    let r2 := processDayAux t r1.1 r1.2.1 rest
    (r2.1, r2.2.1, r1.2.2 :: r2.2.2)

/-- One day of the walk (source lines 213-245): a fresh empty transaction
map, then every item in order. -/
def processDay (t : ValidDate) (balance : Rat) (items : List BudgetItem) :
    Rat × TransMap × List BudgetItem :=
  processDayAux t balance [] items

/-- One entry of `balance_list` (source line 244): the day, the end-of-day
balance (the source stores it formatted as a currency string; the value is
modelled) and the day's transaction map. -/
structure ForecastEntry where
  date : ValidDate
  balance : Rat
  trans : TransMap
deriving DecidableEq

/-- The chronological walk over the window (source lines 213-245),
returning the timeline, the final balance, and the items' final state. -/
def walkDays (balance : Rat) (items : List BudgetItem) :
    List ValidDate → List ForecastEntry × Rat × List BudgetItem
  | [] => ([], balance, items)
  | t :: ts =>
    let r1 := processDay t balance items
    let r2 := walkDays r1.1 r1.2.2 ts
    (⟨t, r1.1, r1.2.1⟩ :: r2.1, r2.2.1, r2.2.2)

/-- `date_list` (source line 185): the `duration*7` consecutive days
starting at `start`. -/
def dateList (start : ValidDate) (len : Nat) : List ValidDate :=
  (List.range len).map (fun x => ValidDate.addDays start x)

/-- The one failure mode of the engine: `date_list[0]` on an empty window
(source line 195), an `IndexError`. -/
inductive ForecastError
  | indexError
deriving DecidableEq

/-- The result of a forecast run: `balance_list`, the final running
balance, and the final state of the (mutated) budget items, which the
caller observes after return. -/
structure ForecastResult where
  timeline : List ForecastEntry
  finalBalance : Rat
  items : List BudgetItem
deriving DecidableEq

/-- `forecast` (source lines 183-245).  Phase 1 reads `date_list[0]` at
the first Date-kind item; with an empty window that read raises
`IndexError` before anything is mutated.  Otherwise every item is
normalized and the walk runs over the whole window. -/
def forecast (balance : Rat) (start : ValidDate) (duration : Nat)
    (budget : List BudgetItem) : Except ForecastError ForecastResult :=
  match dateList start (duration * 7) with
  | [] =>
      if budget.any (fun it => decide (it.due_date_type = some DueDateType.Date)) then
        Except.error ForecastError.indexError
      else
        Except.ok ⟨[], balance, budget⟩
  | ws :: rest =>
      let items1 := budget.map (normalizeItem ws)
      let r := walkDays balance items1 (ws :: rest)
      Except.ok ⟨r.1, r.2.1, r.2.2⟩

/-! The serialization adapter's decoder (`BudgetItemDecoder.decode`,
source lines 120-180).  A JSON record is modelled with one optional field
per key the decoder reads; the `due_date` payload is an int, a string, an
object with optional `day`/`month`/`year` int fields, or some other JSON
value.  Python exceptions (`ValueError` on missing/malformed fields,
`KeyError` escaping from an enum lookup, `ValueError` from the `date`
constructor) become `Except.error` values, so that one failing record
aborts the whole batch exactly as an uncaught exception does. -/

/-- `CycleEnum[name]`: enum lookup by member name. -/
def cycleOfName (s : String) : Option CycleEnum :=
  match s with
  | "DAILY" => some CycleEnum.DAILY
  | "WEEKLY" => some CycleEnum.WEEKLY
  | "BIWEEKLY" => some CycleEnum.BIWEEKLY
  | "MONTHLY" => some CycleEnum.MONTHLY
  | "BIMONTHLY" => some CycleEnum.BIMONTHLY
  | "QUARTERLY" => some CycleEnum.QUARTERLY
  | "YEARLY" => some CycleEnum.YEARLY
  | _ => none

/-- `DueDateType[name]`: enum lookup by member name. -/
def dueDateTypeOfName (s : String) : Option DueDateType :=
  match s with
  | "WeekDay" => some DueDateType.WeekDay
  | "DateNumber" => some DueDateType.DateNumber
  | "Date" => some DueDateType.Date
  | "Daily" => some DueDateType.Daily
  | _ => none

/-- `DayOfWeek[name]`: enum lookup by member name. -/
def dayOfWeekOfName (s : String) : Option DayOfWeek :=
  match s with
  | "Monday" => some DayOfWeek.Monday
  | "Tuesday" => some DayOfWeek.Tuesday
  | "Wednesday" => some DayOfWeek.Wednesday
  | "Thursday" => some DayOfWeek.Thursday
  | "Friday" => some DayOfWeek.Friday
  | "Saturday" => some DayOfWeek.Saturday
  | "Sunday" => some DayOfWeek.Sunday
  | _ => none

/-- The JSON value found under `due_date`. -/
inductive RawDueDate
  | int (n : Int)
  | str (s : String)
  | dict (day month year : Option Int)
  | other
deriving DecidableEq

/-- One JSON record as the decoder reads it; `none` = key absent. -/
structure RawRecord where
  name : Option String
  amount : Option Rat
  cycle : Option String
  due_date_type : Option String
  due_date : Option RawDueDate
deriving DecidableEq

/-- The decoder's failure modes (the uncaught exceptions of the source):
`missingField f` is the `ValueError('missing field "f" ...')` raised for
an absent key, `unknownEnumValue` the `KeyError` escaping from
`CycleEnum[...]`/`DueDateType[...]`, `invalidDueDate` the
`ValueError('due_date is not of type DayOfWeek')`, `malformedDatePayload`
the `ValueError` for a non-dict Date payload, and `invalidDateValue` the
`ValueError` from `date(**...)` on out-of-range components. -/
inductive DecodeError
  | missingField (field : String)
  | unknownEnumValue (field : String)
  | invalidDueDate
  | malformedDatePayload
  | invalidDateValue
deriving DecidableEq

/-- Decode one record (the loop body of source lines 130-174): required
keys are checked in the order `name, amount, cycle, due_date_type`; a
non-Daily kind then requires `due_date`; a Date payload must be a dict
with `day`, `month`, `year` (checked in that order) forming a valid date;
a WeekDay payload must be a known day name; a DateNumber payload is handed
to the constructor unchecked (a non-int payload silently yields a kindless
item, exactly as `BudgetItem.__init__` behaves). -/
def decodeItem (r : RawRecord) : Except DecodeError BudgetItem :=
  match r.name, r.amount, r.cycle, r.due_date_type with
  | none, _, _, _ => Except.error (DecodeError.missingField "name")
  | some _, none, _, _ => Except.error (DecodeError.missingField "amount")
  | some _, some _, none, _ => Except.error (DecodeError.missingField "cycle")
  | some _, some _, some _, none =>
      Except.error (DecodeError.missingField "due_date_type")
  | some name, some amount, some cyc, some ddt =>
    match cycleOfName cyc with
    | none => Except.error (DecodeError.unknownEnumValue "cycle")
    | some cycle =>
      match dueDateTypeOfName ddt with
      | none => Except.error (DecodeError.unknownEnumValue "due_date_type")
      | some DueDateType.Daily =>
          Except.ok (BudgetItem.make name amount cycle DueDateInput.noDate)
      | some DueDateType.Date =>
        match r.due_date with
        | none => Except.error (DecodeError.missingField "due_date")
        | some (RawDueDate.dict day month year) =>
          match day with
          | none => Except.error (DecodeError.missingField "day")
          | some dayv =>
            match month with
            | none => Except.error (DecodeError.missingField "month")
            | some monthv =>
              match year with
              | none => Except.error (DecodeError.missingField "year")
              | some yearv =>
                if hv : Date.Valid ⟨yearv, monthv.toNat, dayv.toNat⟩ then
                  Except.ok (BudgetItem.make name amount cycle
                    (DueDateInput.date ⟨⟨yearv, monthv.toNat, dayv.toNat⟩, hv⟩))
                else Except.error DecodeError.invalidDateValue
        | some _ => Except.error DecodeError.malformedDatePayload
      | some DueDateType.DateNumber =>
        match r.due_date with
        | none => Except.error (DecodeError.missingField "due_date")
        | some (RawDueDate.int n) =>
            Except.ok (BudgetItem.make name amount cycle (DueDateInput.int n))
        | some (RawDueDate.str s) =>
            Except.ok (BudgetItem.make name amount cycle (DueDateInput.unsupported s))
        | some _ =>
            Except.ok (BudgetItem.make name amount cycle
              (DueDateInput.unsupported "due_date"))
      | some DueDateType.WeekDay =>
        match r.due_date with
        | none => Except.error (DecodeError.missingField "due_date")
        | some (RawDueDate.str s) =>
          match dayOfWeekOfName s with
          | some w => Except.ok (BudgetItem.make name amount cycle (DueDateInput.weekday w))
          | none => Except.error DecodeError.invalidDueDate
        | some _ => Except.error DecodeError.invalidDueDate

/-- `BudgetItemDecoder.decode`: records in order, first failure aborts. -/
def decode (records : List RawRecord) : Except DecodeError (List BudgetItem) :=
  match records with
  | [] => Except.ok []
  | r :: rest =>
    match decodeItem r with
    | Except.error e => Except.error e
    | Except.ok b =>
      match decode rest with
      | Except.error e => Except.error e
      | Except.ok bs => Except.ok (b :: bs)

/-! Engine lemmas. -/

theorem processItem_spec (t : ValidDate) (b : Rat) (tr : TransMap)
    (it : BudgetItem) :
    processItem t b tr it =
      (if itemMatches t it = true then b + it.amount else b,
       if itemMatches t it = true then transInsert tr it.name it.amount else tr,
       itemStep t it) := by
  obtain ⟨name, amount, cycle, ddt, dd⟩ := it
  rcases ddt with _ | ty
  · rfl
  · cases ty with
    | WeekDay =>
      rcases dd with _ | v
      · rfl
      · rcases v with n | w | d
        · rfl
        · simp only [processItem, itemMatches, itemStep, decide_eq_true_eq]
          split <;> rfl
        · rfl
    | DateNumber =>
      rcases dd with _ | v
      · rfl
      · rcases v with n | w | d
        · simp only [processItem, itemMatches, itemStep, decide_eq_true_eq]
          split <;> rfl
        · rfl
        · rfl
    | Date =>
      rcases dd with _ | v
      · rfl
      · rcases v with n | w | d
        · rfl
        · rfl
        · simp only [processItem, itemMatches, itemStep, decide_eq_true_eq]
          split <;> rfl
    | Daily => rfl

theorem itemStep_of_not_match {t : ValidDate} {it : BudgetItem}
    (h : itemMatches t it = false) : itemStep t it = it := by
  obtain ⟨name, amount, cycle, ddt, dd⟩ := it
  rcases ddt with _ | ty
  · rfl
  · cases ty with
    | WeekDay => rfl
    | DateNumber => rfl
    | Daily => rfl
    | Date =>
      rcases dd with _ | v
      · rfl
      · rcases v with n | w | d
        · rfl
        · rfl
        · simp only [itemMatches, decide_eq_false_iff_not] at h
          simp only [itemStep]
          rw [if_neg h]

theorem transGet_insert_same (tr : TransMap) (k : String) (v : Rat) :
    transGet (transInsert tr k v) k = some v := by
  induction tr with
  | nil => simp [transInsert, transGet]
  | cons p rest ih =>
    obtain ⟨k1, v1⟩ := p
    by_cases h : k1 = k <;> simp [transInsert, transGet, h, ih]

theorem transGet_insert_other (tr : TransMap) (k : String) (v : Rat)
    (k2 : String) (h : k ≠ k2) :
    transGet (transInsert tr k v) k2 = transGet tr k2 := by
  induction tr with
  | nil => simp [transInsert, transGet, h]
  | cons p rest ih =>
    obtain ⟨k1, v1⟩ := p
    by_cases h1 : k1 = k
    · subst h1
      simp [transInsert, transGet, h, ih]
    · simp only [transInsert, if_neg h1]
      by_cases h2 : k1 = k2 <;> simp [transGet, h2, ih]

/-- The amount of the last item of `l` that fires on `t` and is named `k`
(what the day's transaction map ends up storing under `k`). -/
def lastMatchAmount (t : ValidDate) (k : String) : List BudgetItem → Option Rat
  | [] => none
  | it :: rest =>
    match lastMatchAmount t k rest with
    | some a => some a
    | none =>
        if itemMatches t it = true ∧ it.name = k then some it.amount else none

theorem processDayAux_balance (t : ValidDate) (l : List BudgetItem) :
    ∀ (b : Rat) (tr : TransMap),
      (processDayAux t b tr l).1
        = b + ((l.filter (fun it => itemMatches t it)).map
            (fun it => it.amount)).sum := by
  induction l with
  | nil => intro b tr; simp [processDayAux]
  | cons it rest ih =>
    intro b tr
    simp only [processDayAux, processItem_spec]
    by_cases h : itemMatches t it = true
    · simp only [if_pos h, ih, List.filter_cons, h, if_true, List.map_cons,
        List.sum_cons]
      ring
    · simp only [if_neg h, ih, List.filter_cons, h, Bool.false_eq_true, if_false]

theorem processDayAux_items (t : ValidDate) (l : List BudgetItem) :
    ∀ (b : Rat) (tr : TransMap),
      (processDayAux t b tr l).2.2 = l.map (itemStep t) := by
  induction l with
  | nil => intro b tr; simp [processDayAux]
  | cons it rest ih =>
    intro b tr
    simp only [processDayAux, processItem_spec, ih, List.map_cons]

theorem processDayAux_transGet (t : ValidDate) (k : String) (l : List BudgetItem) :
    ∀ (b : Rat) (tr : TransMap),
      transGet (processDayAux t b tr l).2.1 k
        = match lastMatchAmount t k l with
          | some a => some a
          | none => transGet tr k := by
  induction l with
  | nil => intro b tr; simp [processDayAux, lastMatchAmount]
  | cons it rest ih =>
    intro b tr
    simp only [processDayAux, processItem_spec, lastMatchAmount]
    rw [ih]
    cases hr : lastMatchAmount t k rest with
    | some a => simp [hr]
    | none =>
      simp only [hr]
      by_cases hm : itemMatches t it = true
      · by_cases hk : it.name = k
        · rw [if_pos hm,
            if_pos (show itemMatches t it = true ∧ it.name = k from ⟨hm, hk⟩)]
          show transGet (transInsert tr it.name it.amount) k = some it.amount
          rw [← hk, transGet_insert_same]
        · rw [if_pos hm,
            if_neg (show ¬(itemMatches t it = true ∧ it.name = k) from
              fun hc => hk hc.2)]
          show transGet (transInsert tr it.name it.amount) k = transGet tr k
          exact transGet_insert_other tr it.name it.amount k hk
      · rw [if_neg hm,
          if_neg (show ¬(itemMatches t it = true ∧ it.name = k) from
            fun hc => hm hc.1)]

theorem processDay_balance (t : ValidDate) (b : Rat) (items : List BudgetItem) :
    (processDay t b items).1
      = b + ((items.filter (fun it => itemMatches t it)).map
          (fun it => it.amount)).sum :=
  processDayAux_balance t items b []

theorem processDay_items (t : ValidDate) (b : Rat) (items : List BudgetItem) :
    (processDay t b items).2.2 = items.map (itemStep t) :=
  processDayAux_items t items b []

theorem processDay_transGet (t : ValidDate) (k : String) (b : Rat)
    (items : List BudgetItem) :
    transGet (processDay t b items).2.1 k = lastMatchAmount t k items := by
  have h := processDayAux_transGet t k items b []
  unfold processDay
  rw [h]
  cases lastMatchAmount t k items <;> simp [transGet]

theorem walkDays_length (ts : List ValidDate) :
    ∀ (b : Rat) (items : List BudgetItem),
      (walkDays b items ts).1.length = ts.length := by
  induction ts with
  | nil => intro b items; rfl
  | cons t rest ih =>
    intro b items
    simp only [walkDays, List.length_cons, ih]

theorem walkDays_dates (ts : List ValidDate) :
    ∀ (b : Rat) (items : List BudgetItem),
      (walkDays b items ts).1.map (fun e => e.date) = ts := by
  induction ts with
  | nil => intro b items; rfl
  | cons t rest ih =>
    intro b items
    simp only [walkDays, List.map_cons, ih]

theorem walkDays_items (ts : List ValidDate) :
    ∀ (b : Rat) (items : List BudgetItem),
      (walkDays b items ts).2.2
        = ts.foldl (fun acc t => acc.map (itemStep t)) items := by
  induction ts with
  | nil => intro b items; rfl
  | cons t rest ih =>
    intro b items
    simp only [walkDays, List.foldl_cons, ih, processDay_items]

/-- Dates of the window are pairwise distinct. -/
theorem dateList_nodup (start : ValidDate) (n : Nat) :
    (dateList start n).Nodup := by
  unfold dateList
  refine List.Nodup.map ?_ (List.nodup_range n)
  intro i j hij
  simp only [] at hij
  have hi := ValidDate.toOrdinal_addDays start i
  have hj := ValidDate.toOrdinal_addDays start j
  rw [ValidDate.eq_iff_toOrdinal] at hij
  omega

theorem dateList_length (start : ValidDate) (n : Nat) :
    (dateList start n).length = n := by
  simp [dateList]

theorem dateList_getElem (start : ValidDate) (n i : Nat)
    (hi : i < (dateList start n).length) :
    (dateList start n)[i] = ValidDate.addDays start i := by
  simp [dateList]

theorem dateList_mem (start : ValidDate) (n : Nat) (t : ValidDate) :
    t ∈ dateList start n ↔ ∃ i, i < n ∧ t = ValidDate.addDays start i := by
  simp only [dateList, List.mem_map, List.mem_range]
  constructor
  · rintro ⟨i, hi, rfl⟩
    exact ⟨i, hi, rfl⟩
  · rintro ⟨i, hi, rfl⟩
    exact ⟨i, hi, rfl⟩

/-- A nodup list keeps at most one element equal to `d`. -/
theorem filter_eq_le_one {l : List ValidDate} (hl : l.Nodup) (d : ValidDate) :
    (l.filter (fun t => decide (d = t))).length ≤ 1 := by
  induction l with
  | nil => simp
  | cons x rest ih =>
    rw [List.nodup_cons] at hl
    by_cases h : d = x
    · subst h
      have hnil : rest.filter (fun t => decide (d = t)) = [] := by
        rw [List.filter_eq_nil_iff]
        intro a ha
        simp only [decide_eq_true_eq]
        intro hda
        exact hl.1 (hda ▸ ha)
      simp [List.filter_cons, hnil]
    · simp only [List.filter_cons, decide_eq_true_eq, h, if_false]
      exact ih hl.2

/-! Phase 1 loop postconditions. -/

theorem advBiweekly_not_lt (ws d : ValidDate) :
    ¬ ValidDate.lt (advBiweekly ws d) ws := by
  have key : ∀ n : Nat, ∀ d : ValidDate,
      (ValidDate.toOrdinal ws - ValidDate.toOrdinal d).toNat = n →
      ¬ ValidDate.lt (advBiweekly ws d) ws := by
    intro n
    induction n using Nat.strong_induction_on with
    | _ n ih =>
      intro d hn
      by_cases h : ValidDate.lt d ws
      · rw [advBiweekly, dif_pos h]
        refine ih _ ?_ _ rfl
        have h1 := (ValidDate.lt_iff d ws).mp h
        have h2 := ValidDate.toOrdinal_addWeeks_two d
        omega
      · rw [advBiweekly, dif_neg h]
        exact h
  exact key _ d rfl

theorem advBimonthly_not_lt (ws d : ValidDate) :
    ¬ ValidDate.lt (advBimonthly ws d) ws := by
  have key : ∀ n : Nat, ∀ d : ValidDate,
      (ValidDate.toOrdinal ws - ValidDate.toOrdinal d).toNat = n →
      ¬ ValidDate.lt (advBimonthly ws d) ws := by
    intro n
    induction n using Nat.strong_induction_on with
    | _ n ih =>
      intro d hn
      by_cases h : ValidDate.lt d ws
      · rw [advBimonthly, dif_pos h]
        refine ih _ ?_ _ rfl
        have h1 := (ValidDate.lt_iff d ws).mp h
        have h2 := @ValidDate.toOrdinal_lt_addMonths d 2 (by omega)
        omega
      · rw [advBimonthly, dif_neg h]
        exact h
  exact key _ d rfl

theorem advQuarterly_not_lt (ws d : ValidDate) :
    ¬ ValidDate.lt (advQuarterly ws d) ws := by
  have key : ∀ n : Nat, ∀ d : ValidDate,
      (ValidDate.toOrdinal ws - ValidDate.toOrdinal d).toNat = n →
      ¬ ValidDate.lt (advQuarterly ws d) ws := by
    intro n
    induction n using Nat.strong_induction_on with
    | _ n ih =>
      intro d hn
      by_cases h : ValidDate.lt d ws
      · rw [advQuarterly, dif_pos h]
        refine ih _ ?_ _ rfl
        have h1 := (ValidDate.lt_iff d ws).mp h
        have h2 := @ValidDate.toOrdinal_lt_addMonths d 3 (by omega)
        omega
      · rw [advQuarterly, dif_neg h]
        exact h
  exact key _ d rfl

theorem advYearly_not_lt (ws d : ValidDate) :
    ¬ ValidDate.lt (advYearly ws d) ws := by
  have key : ∀ n : Nat, ∀ d : ValidDate,
      (ValidDate.toOrdinal ws - ValidDate.toOrdinal d).toNat = n →
      ¬ ValidDate.lt (advYearly ws d) ws := by
    intro n
    induction n using Nat.strong_induction_on with
    | _ n ih =>
      intro d hn
      by_cases h : ValidDate.lt d ws
      · rw [advYearly, dif_pos h]
        refine ih _ ?_ _ rfl
        have h1 := (ValidDate.lt_iff d ws).mp h
        have h2 := @ValidDate.toOrdinal_lt_addMonths d 12 (by omega)
        omega
      · rw [advYearly, dif_neg h]
        exact h
  exact key _ d rfl

/-- When one 12-month step already reaches the window, the YEARLY loop
runs exactly once. -/
theorem advYearly_one_step (ws d : ValidDate) (h : ValidDate.lt d ws)
    (h2 : ¬ ValidDate.lt (ValidDate.addMonths d 12) ws) :
    advYearly ws d = ValidDate.addMonths d 12 := by
  rw [advYearly, dif_pos h, advYearly, dif_neg h2]

/-! Frame preservation: both phases only ever touch `due_date`, and only
for Date-kind items. -/

/-- `b` agrees with `a` on every field except possibly `due_date`, and is
identical to `a` unless `a` is Date-kind. -/
def preservedFrom (a b : BudgetItem) : Prop :=
  b.name = a.name ∧ b.amount = a.amount ∧ b.cycle = a.cycle ∧
    b.due_date_type = a.due_date_type ∧
    (a.due_date_type ≠ some DueDateType.Date → b = a)

theorem preservedFrom_refl (a : BudgetItem) : preservedFrom a a :=
  ⟨rfl, rfl, rfl, rfl, fun _ => rfl⟩

theorem preservedFrom_trans {a b c : BudgetItem} (h1 : preservedFrom a b)
    (h2 : preservedFrom b c) : preservedFrom a c := by
  obtain ⟨n1, a1, c1, t1, e1⟩ := h1
  obtain ⟨n2, a2, c2, t2, e2⟩ := h2
  refine ⟨n2.trans n1, a2.trans a1, c2.trans c1, t2.trans t1, ?_⟩
  intro hnd
  have hb : b = a := e1 hnd
  have hc : c = b := e2 (by rw [t1]; exact hnd)
  rw [hc, hb]

theorem advanceDate_preserves (it : BudgetItem) (d : ValidDate)
    (hty : it.due_date_type = some DueDateType.Date) :
    preservedFrom it (advanceDate it d) := by
  obtain ⟨name, amount, cycle, ddt, dd⟩ := it
  simp only [] at hty
  subst hty
  unfold advanceDate preservedFrom
  cases cycle <;> simp

theorem itemStep_preserves (t : ValidDate) (it : BudgetItem) :
    preservedFrom it (itemStep t it) := by
  obtain ⟨name, amount, cycle, ddt, dd⟩ := it
  rcases ddt with _ | ty
  · exact preservedFrom_refl _
  · cases ty with
    | Date =>
      rcases dd with _ | v
      · exact preservedFrom_refl _
      · rcases v with n | w | d
        · exact preservedFrom_refl _
        · exact preservedFrom_refl _
        · simp only [itemStep]
          by_cases h : d = t
          · rw [if_pos h]
            exact advanceDate_preserves _ d rfl
          · rw [if_neg h]
            exact preservedFrom_refl _
    | WeekDay => exact preservedFrom_refl _
    | DateNumber => exact preservedFrom_refl _
    | Daily => exact preservedFrom_refl _

theorem normalizeItem_preserves (ws : ValidDate) (it : BudgetItem) :
    preservedFrom it (normalizeItem ws it) := by
  obtain ⟨name, amount, cycle, ddt, dd⟩ := it
  rcases ddt with _ | ty
  · exact preservedFrom_refl _
  · cases ty with
    | Date =>
      rcases dd with _ | v
      · exact preservedFrom_refl _
      · rcases v with n | w | d
        · exact preservedFrom_refl _
        · exact preservedFrom_refl _
        · simp only [normalizeItem]
          by_cases h : ValidDate.lt d ws
          · rw [if_pos h]
            cases cycle <;>
              exact ⟨rfl, rfl, rfl, rfl, fun hnd => absurd rfl hnd⟩
          · rw [if_neg h]
            exact preservedFrom_refl _
    | WeekDay => exact preservedFrom_refl _
    | DateNumber => exact preservedFrom_refl _
    | Daily => exact preservedFrom_refl _

theorem forall2_preserved_refl (l : List BudgetItem) :
    List.Forall₂ preservedFrom l l := by
  induction l with
  | nil => exact List.Forall₂.nil
  | cons a rest ih => exact List.Forall₂.cons (preservedFrom_refl a) ih

theorem forall2_preserved_map {l : List BudgetItem} (f : BudgetItem → BudgetItem)
    (hf : ∀ it, preservedFrom it (f it)) :
    List.Forall₂ preservedFrom l (l.map f) := by
  induction l with
  | nil => exact List.Forall₂.nil
  | cons a rest ih => exact List.Forall₂.cons (hf a) ih

theorem forall2_preserved_trans {l1 l2 l3 : List BudgetItem}
    (h1 : List.Forall₂ preservedFrom l1 l2)
    (h2 : List.Forall₂ preservedFrom l2 l3) :
    List.Forall₂ preservedFrom l1 l3 := by
  induction h1 generalizing l3 with
  | nil =>
    cases h2
    exact List.Forall₂.nil
  | cons hab hrest ih =>
    cases h2 with
    | cons hbc hrest2 =>
      exact List.Forall₂.cons (preservedFrom_trans hab hbc) (ih hrest2)

theorem walkDays_preserves (ts : List ValidDate) :
    ∀ (b : Rat) (items : List BudgetItem),
      List.Forall₂ preservedFrom items (walkDays b items ts).2.2 := by
  induction ts with
  | nil => intro b items; exact forall2_preserved_refl items
  | cons t rest ih =>
    intro b items
    simp only [walkDays, processDay_items]
    exact forall2_preserved_trans
      (forall2_preserved_map (itemStep t) (itemStep_preserves t))
      (ih _ _)

/-! Walks in which no item ever fires. -/

theorem processDayAux_noMatch (t : ValidDate) (l : List BudgetItem) :
    ∀ (b : Rat) (tr : TransMap), (∀ it ∈ l, itemMatches t it = false) →
      processDayAux t b tr l = (b, tr, l) := by
  induction l with
  | nil => intro b tr _; rfl
  | cons it rest ih =>
    intro b tr hall
    have hit : itemMatches t it = false := hall it (List.mem_cons_self it rest)
    simp only [processDayAux, processItem_spec, hit, Bool.false_eq_true, if_false,
      itemStep_of_not_match hit]
    rw [ih b tr (fun x hx => hall x (List.mem_cons_of_mem it hx))]

theorem walkDays_noMatch (ts : List ValidDate) :
    ∀ (b : Rat) (items : List BudgetItem),
      (∀ t ∈ ts, ∀ it ∈ items, itemMatches t it = false) →
      walkDays b items ts
        = (ts.map (fun t => ⟨t, b, []⟩), b, items) := by
  induction ts with
  | nil => intro b items _; rfl
  | cons t rest ih =>
    intro b items hall
    have hday := processDayAux_noMatch t items b []
      (fun it hit => hall t (List.mem_cons_self t rest) it hit)
    simp only [walkDays, processDay, hday, List.map_cons]
    rw [ih b items (fun u hu it hit => hall u (List.mem_cons_of_mem t hu) it hit)]

/-! Auxiliary lemmas used by the claim theorems. -/

theorem map_date_get :
    ∀ (l : List ForecastEntry) (ts : List ValidDate),
      l.map (fun e => e.date) = ts →
      ∀ i (hi : i < l.length) (hi2 : i < ts.length),
        (l.get ⟨i, hi⟩).date = ts.get ⟨i, hi2⟩ := by
  intro l
  induction l with
  | nil =>
    intro ts h i hi hi2
    exact absurd hi (by simp)
  | cons e rest ih =>
    intro ts h i hi hi2
    cases ts with
    | nil => exact absurd h (by simp)
    | cons t ts2 =>
      rw [List.map_cons] at h
      injection h with h1 h2
      cases i with
      | zero => exact h1
      | succ k => exact ih ts2 h2 k (by simpa using hi) (by simpa using hi2)

theorem dateList_get (start : ValidDate) (n i : Nat)
    (hi : i < (dateList start n).length) :
    (dateList start n).get ⟨i, hi⟩ = ValidDate.addDays start i := by
  rw [List.get_eq_getElem]
  exact dateList_getElem start n i hi

theorem forall2_length_get {α β : Type} {R : α → β → Prop} :
    ∀ {l1 : List α} {l2 : List β}, List.Forall₂ R l1 l2 →
      l1.length = l2.length ∧
      ∀ i (h1 : i < l1.length) (h2 : i < l2.length),
        R (l1.get ⟨i, h1⟩) (l2.get ⟨i, h2⟩) := by
  intro l1 l2 h
  induction h with
  | nil => exact ⟨rfl, fun i h1 h2 => absurd h1 (by simp)⟩
  | cons hab hrest ih =>
    refine ⟨by simp [ih.1], ?_⟩
    intro i h1 h2
    cases i with
    | zero => exact hab
    | succ k => exact ih.2 k (by simpa using h1) (by simpa using h2)

/-- The one-step advance function of each cycle (identity for the three
cycles the engine never advances). -/
def stepOfCycle (c : CycleEnum) (d : ValidDate) : ValidDate :=
  match c with
  | CycleEnum.BIWEEKLY => ValidDate.addWeeks d 2
  | CycleEnum.BIMONTHLY => ValidDate.addMonths d 2
  | CycleEnum.QUARTERLY => ValidDate.addMonths d 3
  | CycleEnum.YEARLY => ValidDate.addMonths d 12
  | _ => d

/-- A concrete window start used by the witnesses (2024-05-15). -/
def sampleStart : ValidDate := ⟨⟨2024, 5, 15⟩, by decide⟩

/-- A concrete due date used by the witnesses (2019-01-10). -/
def sampleDue : ValidDate := ⟨⟨2019, 1, 10⟩, by decide⟩

/-- The forecast of an empty budget over one week from `sampleStart`. -/
def sampleResult : ForecastResult :=
  ⟨(dateList sampleStart 7).map (fun t => ⟨t, 0, []⟩), 0, []⟩

theorem forecast_cons (b : Rat) (start : ValidDate) (duration : Nat)
    (budget : List BudgetItem) (ws : ValidDate) (rest : List ValidDate)
    (hdl : dateList start (duration * 7) = ws :: rest) :
    forecast b start duration budget
      = Except.ok
          ⟨(walkDays b (budget.map (normalizeItem ws)) (ws :: rest)).1,
           (walkDays b (budget.map (normalizeItem ws)) (ws :: rest)).2.1,
           (walkDays b (budget.map (normalizeItem ws)) (ws :: rest)).2.2⟩ := by
  unfold forecast
  split
  · next heq =>
    rw [hdl] at heq
    simp at heq
  · next ws2 rest2 heq =>
    rw [hdl, List.cons.injEq] at heq
    obtain ⟨e1, e2⟩ := heq
    subst e1
    subst e2
    rfl

/-! The claim theorems. -/

/-- C1: every successful `forecast(balance, start, duration, items)` call
produces a timeline of exactly `duration*7` entries, the i-th entry being
the calendar day `start + i`, in strictly increasing chronological order;
the covered days are the fixed window, never extended or truncated by
anything that happens during the walk. -/
theorem forecast_timeline (b : Rat) (start : ValidDate) (duration : Nat)
    (budget : List BudgetItem) (res : ForecastResult)
    (hok : forecast b start duration budget = Except.ok res) :
    res.timeline.length = duration * 7 ∧
    (∀ i (hi : i < res.timeline.length),
      (res.timeline.get ⟨i, hi⟩).date = ValidDate.addDays start i) ∧
    (∀ i j (hi : i < res.timeline.length) (hj : j < res.timeline.length),
      i < j → ValidDate.lt (res.timeline.get ⟨i, hi⟩).date
        (res.timeline.get ⟨j, hj⟩).date) := by
  unfold forecast at hok
  rcases hdl : dateList start (duration * 7) with _ | ⟨ws, rest⟩
  · rw [hdl] at hok
    replace hok : (if (budget.any
        (fun it => decide (it.due_date_type = some DueDateType.Date))) = true then
          (Except.error ForecastError.indexError :
            Except ForecastError ForecastResult)
        else Except.ok ⟨[], b, budget⟩) = Except.ok res := hok
    have hlen0 : duration * 7 = 0 := by
      have hh := dateList_length start (duration * 7)
      rw [hdl] at hh
      simpa using hh.symm
    split at hok
    · simp at hok
    · simp only [Except.ok.injEq] at hok
      subst hok
      refine ⟨by simpa using hlen0.symm, ?_, ?_⟩
      · intro i hi
        simp at hi
      · intro i j hi hj hij
        simp at hi
  · rw [hdl] at hok
    replace hok : Except.ok
        (⟨(walkDays b (budget.map (normalizeItem ws)) (ws :: rest)).1,
          (walkDays b (budget.map (normalizeItem ws)) (ws :: rest)).2.1,
          (walkDays b (budget.map (normalizeItem ws)) (ws :: rest)).2.2⟩ :
          ForecastResult) = Except.ok res := hok
    rw [Except.ok.injEq] at hok
    subst hok
    have hlen : (ws :: rest).length = duration * 7 := by
      have hh := dateList_length start (duration * 7)
      rw [hdl] at hh
      exact hh
    have hmap : (walkDays b (budget.map (normalizeItem ws)) (ws :: rest)).1.map
        (fun e => e.date) = dateList start (duration * 7) := by
      rw [walkDays_dates]
      exact hdl.symm
    have hL : (walkDays b (budget.map (normalizeItem ws)) (ws :: rest)).1.length
        = duration * 7 := by
      rw [walkDays_length]
      exact hlen
    have hget : ∀ i (hi : i < (walkDays b (budget.map (normalizeItem ws))
        (ws :: rest)).1.length),
        ((walkDays b (budget.map (normalizeItem ws)) (ws :: rest)).1.get
          ⟨i, hi⟩).date = ValidDate.addDays start i := by
      intro i hi
      have hi2 : i < (dateList start (duration * 7)).length := by
        rw [dateList_length]
        omega
      rw [map_date_get _ _ hmap i hi hi2]
      exact dateList_get start (duration * 7) i hi2
    refine ⟨hL, hget, ?_⟩
    intro i j hi hj hij
    rw [hget i hi, hget j hj, ValidDate.lt_iff]
    have h1 := ValidDate.toOrdinal_addDays start i
    have h2 := ValidDate.toOrdinal_addDays start j
    omega

theorem forecast_timeline_witness :
    forecast 0 sampleStart 1 [] = Except.ok sampleResult ∧
      sampleResult.timeline.length = 1 * 7 :=
  ⟨rfl, (forecast_timeline 0 sampleStart 1 [] sampleResult rfl).1⟩

/-- C2: Phase 1 normalization of an overdue Date-kind item with one of the
four advancing cycles terminates (each step strictly increases the date)
and leaves the due date on or after the window start; Date-kind items with
DAILY, WEEKLY or MONTHLY cycles are never advanced in this phase. -/
theorem phase1_normalizes (ws : ValidDate) (it : BudgetItem) (d : ValidDate)
    (hty : it.due_date_type = some DueDateType.Date)
    (hdd : it.due_date = some (DueDateVal.date d)) :
    (it.cycle ∈ advCycles →
      ∃ d2, (normalizeItem ws it).due_date = some (DueDateVal.date d2) ∧
        ¬ ValidDate.lt d2 ws) ∧
    (ValidDate.lt d (ValidDate.addWeeks d 2) ∧
      ValidDate.lt d (ValidDate.addMonths d 2) ∧
      ValidDate.lt d (ValidDate.addMonths d 3) ∧
      ValidDate.lt d (ValidDate.addMonths d 12)) ∧
    ((it.cycle = CycleEnum.DAILY ∨ it.cycle = CycleEnum.WEEKLY ∨
        it.cycle = CycleEnum.MONTHLY) → normalizeItem ws it = it) := by
  obtain ⟨name, amount, cycle, ddt, dd⟩ := it
  simp only [] at hty hdd
  subst hty
  subst hdd
  refine ⟨?_, ⟨?_, ?_, ?_, ?_⟩, ?_⟩
  · intro hc
    simp [advCycles] at hc
    rcases hc with rfl | rfl | rfl | rfl
    · by_cases h : ValidDate.lt d ws
      · exact ⟨advBiweekly ws d, by simp only [normalizeItem]; rw [if_pos h],
          advBiweekly_not_lt ws d⟩
      · exact ⟨d, by simp only [normalizeItem]; rw [if_neg h], h⟩
    · by_cases h : ValidDate.lt d ws
      · exact ⟨advBimonthly ws d, by simp only [normalizeItem]; rw [if_pos h],
          advBimonthly_not_lt ws d⟩
      · exact ⟨d, by simp only [normalizeItem]; rw [if_neg h], h⟩
    · by_cases h : ValidDate.lt d ws
      · exact ⟨advQuarterly ws d, by simp only [normalizeItem]; rw [if_pos h],
          advQuarterly_not_lt ws d⟩
      · exact ⟨d, by simp only [normalizeItem]; rw [if_neg h], h⟩
    · by_cases h : ValidDate.lt d ws
      · exact ⟨advYearly ws d, by simp only [normalizeItem]; rw [if_pos h],
          advYearly_not_lt ws d⟩
      · exact ⟨d, by simp only [normalizeItem]; rw [if_neg h], h⟩
  · rw [ValidDate.lt_iff]
    have := ValidDate.toOrdinal_addWeeks_two d
    omega
  · exact (ValidDate.lt_iff _ _).mpr (ValidDate.toOrdinal_lt_addMonths d (by omega))
  · exact (ValidDate.lt_iff _ _).mpr (ValidDate.toOrdinal_lt_addMonths d (by omega))
  · exact (ValidDate.lt_iff _ _).mpr (ValidDate.toOrdinal_lt_addMonths d (by omega))
  · intro hc
    rcases hc with rfl | rfl | rfl <;>
      · simp only [normalizeItem]
        split <;> rfl

theorem phase1_normalizes_witness :
    ValidDate.lt sampleDue (ValidDate.addWeeks sampleDue 2) ∧
      ValidDate.lt sampleDue (ValidDate.addMonths sampleDue 2) ∧
      ValidDate.lt sampleDue (ValidDate.addMonths sampleDue 3) ∧
      ValidDate.lt sampleDue (ValidDate.addMonths sampleDue 12) :=
  (phase1_normalizes sampleStart
    (BudgetItem.make "Sewer" (-165) CycleEnum.QUARTERLY
      (DueDateInput.date sampleDue))
    sampleDue rfl rfl).2.1

/-- C3: in the day-by-day walk a Date-kind item matches day `t` exactly
when `t` equals its current due date; on a match its due date advances by
one cycle step if and only if its cycle is BIWEEKLY, BIMONTHLY, QUARTERLY
or YEARLY (addWeeks 2 / addMonths 2, 3, 12 respectively), the new due date
lying strictly after `t` (at most one firing per occurrence); Date-kind
items with DAILY, WEEKLY or MONTHLY cycles never advance and fire at most
once in the whole window. -/
theorem dateItem_match_advance (t : ValidDate) (it : BudgetItem) (d : ValidDate)
    (hty : it.due_date_type = some DueDateType.Date)
    (hdd : it.due_date = some (DueDateVal.date d)) :
    (itemMatches t it = true ↔ t = d) ∧
    (∀ (b : Rat) (tr : TransMap), (processItem t b tr it).2.2 = itemStep t it) ∧
    (t = d → it.cycle ∈ advCycles →
      itemStep t it
          = { it with due_date := some (DueDateVal.date (stepOfCycle it.cycle d)) } ∧
        ValidDate.lt t (stepOfCycle it.cycle d)) ∧
    (t ≠ d → itemStep t it = it) ∧
    (it.cycle ∉ advCycles → itemStep t it = it) ∧
    (it.cycle ∉ advCycles → ∀ (start : ValidDate) (n : Nat),
      ((dateList start n).filter (fun u => itemMatches u it)).length ≤ 1) := by
  obtain ⟨name, amount, cycle, ddt, dd⟩ := it
  simp only [] at hty hdd
  subst hty
  subst hdd
  have hmatch : ∀ u : ValidDate,
      itemMatches u ⟨name, amount, cycle, some DueDateType.Date,
        some (DueDateVal.date d)⟩ = decide (d = u) := fun u => rfl
  refine ⟨?_, ?_, ?_, ?_, ?_, ?_⟩
  · rw [hmatch]
    simp [eq_comm]
  · intro b tr
    rw [processItem_spec]
  · intro ht hc
    have hpos : itemStep t ⟨name, amount, cycle, some DueDateType.Date,
        some (DueDateVal.date d)⟩ = advanceDate ⟨name, amount, cycle,
        some DueDateType.Date, some (DueDateVal.date d)⟩ d := by
      simp only [itemStep]
      rw [if_pos ht.symm]
    simp [advCycles] at hc
    rcases hc with rfl | rfl | rfl | rfl
    · refine ⟨by rw [hpos]; rfl, ?_⟩
      rw [ht, ValidDate.lt_iff]
      have := ValidDate.toOrdinal_addWeeks_two d
      simp only [stepOfCycle]
      omega
    · refine ⟨by rw [hpos]; rfl, ?_⟩
      rw [ht]
      exact (ValidDate.lt_iff _ _).mpr (ValidDate.toOrdinal_lt_addMonths d (by omega))
    · refine ⟨by rw [hpos]; rfl, ?_⟩
      rw [ht]
      exact (ValidDate.lt_iff _ _).mpr (ValidDate.toOrdinal_lt_addMonths d (by omega))
    · refine ⟨by rw [hpos]; rfl, ?_⟩
      rw [ht]
      exact (ValidDate.lt_iff _ _).mpr (ValidDate.toOrdinal_lt_addMonths d (by omega))
  · intro hne
    simp only [itemStep]
    rw [if_neg (fun h => hne h.symm)]
  · intro hc
    simp only [itemStep]
    by_cases h : d = t
    · rw [if_pos h]
      cases cycle with
      | BIWEEKLY => exact absurd (by simp [advCycles]) hc
      | BIMONTHLY => exact absurd (by simp [advCycles]) hc
      | QUARTERLY => exact absurd (by simp [advCycles]) hc
      | YEARLY => exact absurd (by simp [advCycles]) hc
      | DAILY => rfl
      | WEEKLY => rfl
      | MONTHLY => rfl
    · rw [if_neg h]
  · intro hc start n
    have hcong : ∀ u ∈ dateList start n,
        itemMatches u ⟨name, amount, cycle, some DueDateType.Date,
          some (DueDateVal.date d)⟩ = decide (d = u) := fun u _ => hmatch u
    rw [List.filter_congr hcong]
    exact filter_eq_le_one (dateList_nodup start n) d

theorem dateItem_match_advance_witness :
    itemMatches sampleStart
        (BudgetItem.make "Hair" (-60) CycleEnum.BIMONTHLY
          (DueDateInput.date sampleDue)) = true
      ↔ sampleStart = sampleDue :=
  (dateItem_match_advance sampleStart
    (BudgetItem.make "Hair" (-60) CycleEnum.BIMONTHLY (DueDateInput.date sampleDue))
    sampleDue rfl rfl).1

/-- C4 counterexample: constructing a BudgetItem with a due-date value of
an unsupported type (here a plain string) raises no error at all — the
constructor returns normally with `due_date_type` left as `None` and no
due-date payload assigned, refuting the claimed InvalidDueDate failure. -/
theorem make_unsupported_counterexample :
    BudgetItem.make "Sewer" (-165) CycleEnum.QUARTERLY
        (DueDateInput.unsupported "2019-01-10")
      = ⟨"Sewer", -165, CycleEnum.QUARTERLY, none, none⟩ := rfl

/-- C4 (amended): for every unsupported due-date value the constructor
does not fail; it silently returns an item whose `due_date_type` is unset
(`None`, hence none of the four kinds) and whose due-date payload is never
assigned, so no usable item with one of the four due-date kinds is
produced. -/
theorem make_unsupported_spec (name : String) (amount : Rat)
    (cycle : CycleEnum) (s : String) :
    (BudgetItem.make name amount cycle (DueDateInput.unsupported s)).due_date_type
        = none ∧
    (BudgetItem.make name amount cycle (DueDateInput.unsupported s)).due_date
        = none ∧
    ∀ k : DueDateType,
      (BudgetItem.make name amount cycle
          (DueDateInput.unsupported s)).due_date_type ≠ some k :=
  ⟨rfl, rfl, fun k h => Option.noConfusion h⟩

/-- C5: `add_months(d, n)` returns the date whose linear month count is
d's advanced by exactly n (the year wrapping as needed) and whose
day-of-month is d's day clamped to the last valid day of the resulting
month; in particular addMonths(2024-01-31, 1) = 2024-02-29.  It is total
on valid dates and always yields a valid date (no error conditions). -/
theorem add_months_spec (d : Date) (n : Int) (h : d.Valid) :
    ((add_months d n).year * 12 + ((add_months d n).month : Int)
        = d.year * 12 + (d.month : Int) + n) ∧
    ((add_months d n).day
        = min d.day (daysInMonth (add_months d n).year (add_months d n).month)) ∧
    (add_months d n).Valid ∧
    add_months ⟨2024, 1, 31⟩ 1 = ⟨2024, 2, 29⟩ :=
  ⟨add_months_monthEq d n, add_months_dayEq d n, add_months_valid h n, by decide⟩

theorem add_months_spec_witness :
    Date.Valid ⟨2024, 1, 31⟩ ∧ add_months ⟨2024, 1, 31⟩ 1 = ⟨2024, 2, 29⟩ :=
  ⟨by decide, (add_months_spec ⟨2024, 1, 31⟩ 1 (by decide)).2.2.2⟩

/-- C6: on any one day every matching item's amount is added to the
running balance independently (the day's balance delta is the sum over
all matching items), while the day's transaction map keys on the item
name: the entry stored under a name is the amount of the last matching
item bearing that name, so two matching items sharing a name leave only
the later one's map entry while the balance reflects both amounts. -/
theorem sameDay_all_apply_last_wins (t : ValidDate) (b : Rat)
    (items : List BudgetItem) :
    (processDay t b items).1
      = b + ((items.filter (fun it => itemMatches t it)).map
          (fun it => it.amount)).sum ∧
    ∀ k : String,
      transGet (processDay t b items).2.1 k = lastMatchAmount t k items :=
  ⟨processDay_balance t b items, fun k => processDay_transGet t k b items⟩

/-- C7: a `forecast` call's only effect on its inputs is replacing the
`due_date` of Date-kind items; the item list it hands back has the same
length, every item keeps its name, amount, cycle and due-date kind, and
any item whose kind is not Date is returned entirely unchanged. -/
theorem forecast_frame (b : Rat) (start : ValidDate) (duration : Nat)
    (budget : List BudgetItem)
    (hwf : ∀ it ∈ budget, BudgetItem.dateWF it = true)
    (res : ForecastResult)
    (hok : forecast b start duration budget = Except.ok res) :
    res.items.length = budget.length ∧
    ∀ i (hi : i < budget.length) (hj : i < res.items.length),
      (res.items.get ⟨i, hj⟩).name = (budget.get ⟨i, hi⟩).name ∧
      (res.items.get ⟨i, hj⟩).amount = (budget.get ⟨i, hi⟩).amount ∧
      (res.items.get ⟨i, hj⟩).cycle = (budget.get ⟨i, hi⟩).cycle ∧
      (res.items.get ⟨i, hj⟩).due_date_type = (budget.get ⟨i, hi⟩).due_date_type ∧
      ((budget.get ⟨i, hi⟩).due_date_type ≠ some DueDateType.Date →
        res.items.get ⟨i, hj⟩ = budget.get ⟨i, hi⟩) := by
  unfold forecast at hok
  rcases hdl : dateList start (duration * 7) with _ | ⟨ws, rest⟩
  · rw [hdl] at hok
    replace hok : (if (budget.any
        (fun it => decide (it.due_date_type = some DueDateType.Date))) = true then
          (Except.error ForecastError.indexError :
            Except ForecastError ForecastResult)
        else Except.ok ⟨[], b, budget⟩) = Except.ok res := hok
    split at hok
    · simp at hok
    · simp only [Except.ok.injEq] at hok
      subst hok
      refine ⟨rfl, ?_⟩
      intro i hi hj
      exact ⟨rfl, rfl, rfl, rfl, fun _ => rfl⟩
  · rw [hdl] at hok
    replace hok : Except.ok
        (⟨(walkDays b (budget.map (normalizeItem ws)) (ws :: rest)).1,
          (walkDays b (budget.map (normalizeItem ws)) (ws :: rest)).2.1,
          (walkDays b (budget.map (normalizeItem ws)) (ws :: rest)).2.2⟩ :
          ForecastResult) = Except.ok res := hok
    rw [Except.ok.injEq] at hok
    subst hok
    have hf2 : List.Forall₂ preservedFrom budget
        (walkDays b (budget.map (normalizeItem ws)) (ws :: rest)).2.2 :=
      forall2_preserved_trans
        (forall2_preserved_map (normalizeItem ws) (normalizeItem_preserves ws))
        (walkDays_preserves (ws :: rest) b _)
    obtain ⟨hlen2, hget2⟩ := forall2_length_get hf2
    refine ⟨hlen2.symm, ?_⟩
    intro i hi hj
    exact hget2 i hi hj

theorem forecast_frame_witness :
    forecast 0 sampleStart 1 [] = Except.ok sampleResult ∧
      sampleResult.items.length = ([] : List BudgetItem).length :=
  ⟨rfl, (forecast_frame 0 sampleStart 1 [] (by simp) sampleResult rfl).1⟩

/-- C8: for every window start, forecasting one week from balance 1000
with the single Date item {amount -100, due = start - 10 days, cycle
YEARLY} succeeds: Phase 1 takes one 12-month step landing on or after the
window start and in fact strictly beyond every one of the 7 window days,
the item never fires (every entry keeps balance 1000 and an empty
transaction map) and the final balance is exactly 1000. -/
theorem yearly_overdue_never_fires (start : ValidDate) :
    forecast 1000 start 1
        [BudgetItem.make "TAXES" (-100) CycleEnum.YEARLY
          (DueDateInput.date (ValidDate.subDays start 10))]
      = Except.ok
          ⟨(dateList start 7).map (fun t => ⟨t, 1000, []⟩), 1000,
           [BudgetItem.make "TAXES" (-100) CycleEnum.YEARLY
             (DueDateInput.date
               (ValidDate.addMonths (ValidDate.subDays start 10) 12))]⟩ ∧
    ¬ ValidDate.lt (ValidDate.addMonths (ValidDate.subDays start 10) 12) start ∧
    (∀ t ∈ dateList start 7,
      ValidDate.lt t (ValidDate.addMonths (ValidDate.subDays start 10) 12)) ∧
    (∀ e ∈ (dateList start 7).map
        (fun t => (⟨t, 1000, []⟩ : ForecastEntry)),
      e.balance = 1000 ∧ e.trans = []) := by
  have hod := ValidDate.toOrdinal_subDays start 10
  have hlt : ValidDate.lt (ValidDate.subDays start 10) start := by
    rw [ValidDate.lt_iff]
    omega
  have hjump := ValidDate.toOrdinal_addMonths_twelve (ValidDate.subDays start 10)
  have hnot : ¬ ValidDate.lt
      (ValidDate.addMonths (ValidDate.subDays start 10) 12) start := by
    rw [ValidDate.lt_iff]
    omega
  have hadv := advYearly_one_step start (ValidDate.subDays start 10) hlt hnot
  have hwin : ∀ t ∈ dateList start 7,
      ValidDate.lt t (ValidDate.addMonths (ValidDate.subDays start 10) 12) := by
    intro t ht
    rw [dateList_mem] at ht
    obtain ⟨i, hi, rfl⟩ := ht
    have hoi := ValidDate.toOrdinal_addDays start i
    rw [ValidDate.lt_iff]
    omega
  refine ⟨?_, hnot, hwin, ?_⟩
  · have hnorm : normalizeItem start
        (BudgetItem.make "TAXES" (-100) CycleEnum.YEARLY
          (DueDateInput.date (ValidDate.subDays start 10)))
        = BudgetItem.make "TAXES" (-100) CycleEnum.YEARLY
            (DueDateInput.date
              (ValidDate.addMonths (ValidDate.subDays start 10) 12)) := by
      simp only [BudgetItem.make, normalizeItem]
      rw [if_pos hlt, hadv]
    rcases hdl : dateList start 7 with _ | ⟨ws, rest⟩
    · exfalso
      have hh := dateList_length start 7
      rw [hdl] at hh
      simp at hh
    · have hws : ws = start := by
        have h0 : (dateList start 7).head? = some start := rfl
        rw [hdl] at h0
        simpa using h0
      subst hws
      have hnom : ∀ t ∈ ws :: rest,
          ∀ itx ∈ [BudgetItem.make "TAXES" (-100) CycleEnum.YEARLY
            (DueDateInput.date
              (ValidDate.addMonths (ValidDate.subDays ws 10) 12))],
          itemMatches t itx = false := by
        intro t ht itx hitx
        rw [List.mem_singleton] at hitx
        subst hitx
        have hlt2 : ValidDate.lt t
            (ValidDate.addMonths (ValidDate.subDays ws 10) 12) := by
          apply hwin
          rw [hdl]
          exact ht
        have hne : ¬ (ValidDate.addMonths (ValidDate.subDays ws 10) 12 = t) := by
          intro hEq
          rw [ValidDate.lt_iff] at hlt2
          rw [ValidDate.eq_iff_toOrdinal] at hEq
          omega
        simp only [BudgetItem.make, itemMatches]
        simpa using hne
      have hW := walkDays_noMatch (ws :: rest) 1000
        [BudgetItem.make "TAXES" (-100) CycleEnum.YEARLY
          (DueDateInput.date (ValidDate.addMonths (ValidDate.subDays ws 10) 12))]
        hnom
      have h77 : dateList ws (1 * 7) = ws :: rest := by
        rw [show (1 : Nat) * 7 = 7 from rfl]
        exact hdl
      rw [forecast_cons 1000 ws 1 _ ws rest h77]
      simp only [List.map_cons, List.map_nil, hnorm]
      rw [hW]
      rfl
  · intro e he
    rw [List.mem_map] at he
    obtain ⟨t, ht, rfl⟩ := he
    exact ⟨rfl, rfl⟩

/-- C9: decoding fails with a MissingField error naming the absent key
whenever a record lacks one of name, amount, cycle, due_date_type (checked
in that order), or lacks due_date while its resolved due-date type is not
Daily; in particular a record missing amount fails with MissingField
naming amount, and one failing record aborts the whole batch with no
partial result. -/
theorem decode_missing_field (r : RawRecord) :
    (r.name = none → decodeItem r = Except.error (DecodeError.missingField "name")) ∧
    (r.name.isSome = true → r.amount = none →
      decodeItem r = Except.error (DecodeError.missingField "amount")) ∧
    (r.name.isSome = true → r.amount.isSome = true → r.cycle = none →
      decodeItem r = Except.error (DecodeError.missingField "cycle")) ∧
    (r.name.isSome = true → r.amount.isSome = true → r.cycle.isSome = true →
      r.due_date_type = none →
      decodeItem r = Except.error (DecodeError.missingField "due_date_type")) ∧
    (∀ (nm : String) (am : Rat) (cyc ddt : String) (c : CycleEnum)
        (ty : DueDateType),
      r.name = some nm → r.amount = some am → r.cycle = some cyc →
      r.due_date_type = some ddt → cycleOfName cyc = some c →
      dueDateTypeOfName ddt = some ty → ty ≠ DueDateType.Daily →
      r.due_date = none →
      decodeItem r = Except.error (DecodeError.missingField "due_date")) ∧
    (∀ (l1 l2 : List RawRecord) (e : DecodeError),
      decodeItem r = Except.error e →
      ∃ e2, decode (l1 ++ r :: l2) = Except.error e2) := by
  obtain ⟨nameF, amountF, cycleF, ddtF, ddF⟩ := r
  refine ⟨?_, ?_, ?_, ?_, ?_, ?_⟩
  · intro h1
    simp only [] at h1
    subst h1
    rfl
  · intro h1 h2
    simp only [] at h1 h2
    subst h2
    rcases nameF with _ | nm
    · simp at h1
    · rfl
  · intro h1 h2 h3
    simp only [] at h1 h2 h3
    subst h3
    rcases nameF with _ | nm
    · simp at h1
    · rcases amountF with _ | am
      · simp at h2
      · rfl
  · intro h1 h2 h3 h4
    simp only [] at h1 h2 h3 h4
    subst h4
    rcases nameF with _ | nm
    · simp at h1
    · rcases amountF with _ | am
      · simp at h2
      · rcases cycleF with _ | cyc
        · simp at h3
        · rfl
  · intro nm am cyc ddt c ty h1 h2 h3 h4 hc hty hnd h5
    simp only [] at h1 h2 h3 h4 h5
    subst h1
    subst h2
    subst h3
    subst h4
    subst h5
    simp only [decodeItem]
    rw [hc, hty]
    cases ty with
    | Daily => exact absurd rfl hnd
    | Date => rfl
    | DateNumber => rfl
    | WeekDay => rfl
  · intro l1 l2 e he
    induction l1 with
    | nil => exact ⟨e, by simp only [List.nil_append, decode, he]⟩
    | cons r2 restL ih =>
      obtain ⟨e2, he2⟩ := ih
      cases hd : decodeItem r2 with
      | error e3 =>
        refine ⟨e3, ?_⟩
        simp only [List.cons_append, decode, hd]
      | ok bb =>
        refine ⟨e2, ?_⟩
        simp only [List.cons_append, decode, hd, List.append_eq, he2]

theorem decode_missing_field_witness :
    (⟨some "Food", none, some "DAILY", some "Daily", none⟩ :
        RawRecord).name.isSome = true ∧
    decodeItem ⟨some "Food", none, some "DAILY", some "Daily", none⟩
      = Except.error (DecodeError.missingField "amount") :=
  ⟨rfl, (decode_missing_field
    ⟨some "Food", none, some "DAILY", some "Daily", none⟩).2.1 rfl rfl⟩

/-- C10: with duration 0 and at least one Date-kind item, Phase 1's read
of the window's first day indexes an empty list and the call fails with
IndexError; with duration 0 and no Date-kind item it returns the empty
timeline; with duration ≥ 1 the lookup is always in bounds and the call
succeeds. -/
theorem forecast_empty_window (b : Rat) (start : ValidDate)
    (budget : List BudgetItem)
    (hwf : ∀ it ∈ budget, BudgetItem.dateWF it = true) :
    ((∃ it ∈ budget, it.due_date_type = some DueDateType.Date) →
      forecast b start 0 budget = Except.error ForecastError.indexError) ∧
    ((∀ it ∈ budget, it.due_date_type ≠ some DueDateType.Date) →
      forecast b start 0 budget = Except.ok ⟨[], b, budget⟩) ∧
    (∀ duration : Nat, 1 ≤ duration →
      ∃ res, forecast b start duration budget = Except.ok res) := by
  refine ⟨?_, ?_, ?_⟩
  · rintro ⟨it, hmem, hty⟩
    have hc : budget.any
        (fun it => decide (it.due_date_type = some DueDateType.Date)) = true :=
      List.any_eq_true.mpr ⟨it, hmem, by simpa using hty⟩
    show (if (budget.any
        (fun it => decide (it.due_date_type = some DueDateType.Date))) = true then
          (Except.error ForecastError.indexError :
            Except ForecastError ForecastResult)
        else Except.ok ⟨[], b, budget⟩) = Except.error ForecastError.indexError
    rw [if_pos hc]
  · intro hall
    have hc : budget.any
        (fun it => decide (it.due_date_type = some DueDateType.Date)) = false := by
      rw [List.any_eq_false]
      intro it hmem
      simpa using hall it hmem
    show (if (budget.any
        (fun it => decide (it.due_date_type = some DueDateType.Date))) = true then
          (Except.error ForecastError.indexError :
            Except ForecastError ForecastResult)
        else Except.ok ⟨[], b, budget⟩) = Except.ok ⟨[], b, budget⟩
    rw [if_neg (by rw [hc]; exact Bool.false_ne_true)]
  · intro duration hdur
    rcases hdl : dateList start (duration * 7) with _ | ⟨ws, rest⟩
    · exfalso
      have hh := dateList_length start (duration * 7)
      rw [hdl] at hh
      simp at hh
      omega
    · refine ⟨⟨(walkDays b (budget.map (normalizeItem ws)) (ws :: rest)).1,
        (walkDays b (budget.map (normalizeItem ws)) (ws :: rest)).2.1,
        (walkDays b (budget.map (normalizeItem ws)) (ws :: rest)).2.2⟩, ?_⟩
      unfold forecast
      split
      · next heq =>
        exfalso
        rw [hdl] at heq
        simp at heq
      · next ws2 rest2 heq =>
        rw [hdl] at heq
        injection heq with e1 e2
        subst e1
        subst e2
        rfl

theorem forecast_empty_window_witness :
    BudgetItem.dateWF (BudgetItem.make "TAXES" (-1000) CycleEnum.YEARLY
        (DueDateInput.date sampleDue)) = true ∧
    forecast 0 sampleStart 0
        [BudgetItem.make "TAXES" (-1000) CycleEnum.YEARLY
          (DueDateInput.date sampleDue)]
      = Except.error ForecastError.indexError :=
  ⟨rfl, (forecast_empty_window 0 sampleStart _
      (by intro it hit; rw [List.mem_singleton] at hit; subst hit; rfl)).1
    ⟨BudgetItem.make "TAXES" (-1000) CycleEnum.YEARLY (DueDateInput.date sampleDue),
      List.mem_singleton_self _, rfl⟩⟩

end MoneyCast
